import Mathlib

/-!
Verification development for the point-to-point bidirectional Dijkstra search
(src/src/algo/bidirectional_dijkstra.rs) and the perfect-elimination-ordering
routine (src/src/algo/peo.rs) of this repository.

The Rust source is shallowly embedded: the generic graph capability is
instantiated with a concrete finite edge-list graph over natural-number node
identifiers, the hash map of tentative scores becomes an association list, the
binary heap of MinScored entries becomes a list popped at a minimal score, and
the visit maps become membership lists.  The labelled-loop driver becomes an
explicit small-step function iterated with fuel.  Iteration order of
edges_directed is modelled as edge-list order; hash-set and heap tie-breaking
orders, which the source leaves unspecified, are fixed deterministically.
-/

namespace BD

/-- Modelled from the spec: the numeric measure abstraction.  The
PositiveMeasure capability the source is generic over is declared outside the
audited source; the spec requires a zero, a maximal sentinel usable as
unreachable, a total order, and addition that saturates at the sentinel.
Finite values are natural numbers (non-negative integer weights). -/
inductive M where
  | fin : Nat → M
  | inf : M
  deriving DecidableEq, Repr

/-- Saturating addition on the measure: the maximal sentinel absorbs. -/
def M.add : M → M → M
  | .fin a, .fin b => .fin (a + b)
  | _, _ => .inf

/-- Boolean total order on the measure; the sentinel is maximal. -/
def M.ble : M → M → Bool
  | .fin a, .fin b => Nat.ble a b
  | _, .inf => true
  | .inf, .fin _ => false

/-- Boolean strict order on the measure. -/
def M.blt (a b : M) : Bool := !(M.ble b a)

/-- Minimum of two measures, as used by std::cmp::min in the source. -/
def M.minv (a b : M) : M := if M.ble a b then a else b

/-- The additive identity, K::default() in the source. -/
def M.zero : M := .fin 0

/-- A directed edge of the concrete graph: source node, target node and its
non-negative cost (the caller-supplied edge_cost function read off the edge
reference). -/
structure Edge where
  src : Nat
  tgt : Nat
  cost : Nat
  deriving DecidableEq, Repr

/-- A finite directed graph: a list of node identifiers and a list of edges.
Multi-edges (repeated entries) and self-loops are permitted. -/
structure Graph where
  nodes : List Nat
  edges : List Edge
  deriving DecidableEq, Repr

/-- edges_directed(u, Outgoing): the outgoing edges of u, in edge-list order. -/
def outEdges (g : Graph) (u : Nat) : List Edge :=
  g.edges.filter (fun e => e.src == u)

/-- edges_directed(u, Incoming): the incoming edges of u, in edge-list order. -/
def inEdges (g : Graph) (u : Nat) : List Edge :=
  g.edges.filter (fun e => e.tgt == u)

/-- The scores table, HashMap<(NodeId, NodeId), K> in the source, as an
association list keyed by (anchor, node) pairs. -/
abbrev Scores := List ((Nat × Nat) × M)

/-- Lookup of a key in the scores table. -/
def lookupScore : Scores → Nat × Nat → Option M
  | [], _ => none
  | (k, v) :: rest, k' => if k = k' then some v else lookupScore rest k'

/-- Overwrite the value stored at an existing key (Entry::Occupied update). -/
def setScore : Scores → Nat × Nat → M → Scores
  | [], _, _ => []
  | (k, v) :: rest, k', v' =>
    if k = k' then (k, v') :: rest else (k, v) :: setScore rest k' v'

/-- HashMap::insert: overwrite if present, add the binding otherwise. -/
def insertScore (sc : Scores) (k : Nat × Nat) (v : M) : Scores :=
  match lookupScore sc k with
  | some _ => setScore sc k v
  | none => (k, v) :: sc

/-- Total indexing into the scores table; the source indexes with &[...],
whose panics never fire because every indexed key is present (it was seeded or
written when the indexed node entered a heap or a closed set). -/
def scoreGet (sc : Scores) (k : Nat × Nat) : M := (lookupScore sc k).getD M.inf

/-- The BinaryHeap of MinScored(score, node) entries, as a list of pairs. -/
abbrev Heap := List (M × Nat)

/-- Pop an entry of minimal score (BinaryHeap::pop through MinScored's
reversed ordering); ties are resolved to the earliest listed entry. -/
def popMin : Heap → Option ((M × Nat) × Heap)
  | [] => none
  | x :: xs =>
    match popMin xs with
    | none => some (x, [])
    | some (y, rest) => if M.ble x.1 y.1 then some (x, xs) else some (y, x :: rest)

theorem popMin_eq_none : ∀ {h : Heap}, popMin h = none → h = [] := by
  intro h
  cases h with
  | nil => intro; rfl
  | cons x xs =>
    intro heq
    cases hxs : popMin xs with
    | none => simp [popMin, hxs] at heq
    | some y =>
      obtain ⟨z, zrest⟩ := y
      simp only [popMin, hxs] at heq
      split at heq <;> simp at heq

theorem popMin_length : ∀ {h : Heap} {y rest}, popMin h = some (y, rest) →
    rest.length + 1 = h.length := by
  intro h
  induction h with
  | nil => intro y rest heq; simp [popMin] at heq
  | cons x xs ih =>
    intro y rest heq
    cases hxs : popMin xs with
    | none =>
      have : xs = [] := popMin_eq_none hxs
      subst this
      simp only [popMin] at heq
      simp at heq
      obtain ⟨rfl, rfl⟩ := heq
      simp
    | some z =>
      obtain ⟨z1, zrest⟩ := z
      simp only [popMin, hxs] at heq
      split at heq
      · simp at heq
        obtain ⟨rfl, rfl⟩ := heq
        simp
      · simp at heq
        obtain ⟨rfl, rfl⟩ := heq
        have := ih hxs
        simp [← this]

/-- Structural worker for the inner pop loop; the fuel argument only serves
the recursion and never runs out when it starts at the heap length, because
every pop shrinks the heap by one element. -/
def popUnclosedAux : Nat → Heap → List Nat → Option (Nat × Heap)
  | 0, _, _ => none
  | n + 1, h, closed =>
    match popMin h with
    | none => none
    | some ((_, m), rest) =>
      if m ∈ closed then popUnclosedAux n rest closed else some (m, rest)

/-- The inner pop loop of the source: pop until a node not yet in the closed
set appears; popped closed nodes are discarded for good. -/
def popUnclosed (h : Heap) (closed : List Nat) : Option (Nat × Heap) :=
  popUnclosedAux h.length h closed

theorem popUnclosedAux_fuel : ∀ (f1 f2 : Nat) (h : Heap) (c : List Nat),
    h.length ≤ f1 → h.length ≤ f2 → popUnclosedAux f1 h c = popUnclosedAux f2 h c := by
  intro f1
  induction f1 with
  | zero =>
    intro f2 h c h1 _
    have : h = [] := List.length_eq_zero.mp (Nat.le_zero.mp h1)
    subst this
    cases f2 with
    | zero => rfl
    | succ m => simp [popUnclosedAux, popMin]
  | succ n ih =>
    intro f2 h c _ h2
    cases f2 with
    | zero =>
      have : h = [] := List.length_eq_zero.mp (Nat.le_zero.mp h2)
      subst this
      simp [popUnclosedAux, popMin]
    | succ m =>
      simp only [popUnclosedAux]
      cases hpm : popMin h with
      | none => rfl
      | some y =>
        obtain ⟨⟨k, nd⟩, rest⟩ := y
        have hlen := popMin_length hpm
        by_cases hc : nd ∈ c
        · simp only [hc, if_true]
          exact ih m rest c (by omega) (by omega)
        · simp [hc]

/-- The natural unfolding of popUnclosed, matching the source's loop. -/
theorem popUnclosed_eq (h : Heap) (c : List Nat) :
    popUnclosed h c =
      match popMin h with
      | none => none
      | some ((_, m), rest) =>
        if m ∈ c then popUnclosed rest c else some (m, rest) := by
  cases hpm : popMin h with
  | none =>
    have : h = [] := popMin_eq_none hpm
    subst this
    rfl
  | some y =>
    obtain ⟨⟨k, m⟩, rest⟩ := y
    have hlen := popMin_length hpm
    show popUnclosedAux h.length h c = _
    rw [← hlen]
    simp only [popUnclosedAux, hpm]
    by_cases hc : m ∈ c
    · simp only [hc, if_true]
      exact popUnclosedAux_fuel rest.length rest.length rest c (Nat.le_refl _) (Nat.le_refl _)
    · simp [hc]

/-- The two directions of the alternating driver. -/
inductive Phase where
  | fwd
  | bwd
  deriving DecidableEq, Repr

/-- How a run ended: the termination check fired, the forward queue was
exhausted, or the backward queue was exhausted. -/
inductive ExitKind where
  | check
  | fxh
  | bxh
  deriving DecidableEq, Repr

/-- The mutable state of one invocation of bidirectional_dijkstra: the bound
μ, the shared scores table, the active nodes us/ut, the per-direction closed
sets, edge cursors and priority queues, and which direction runs next. -/
structure DState where
  μ : M
  scores : Scores
  us : Nat
  ut : Nat
  fClosed : List Nat
  bClosed : List Nat
  fIter : List Edge
  bIter : List Edge
  fHeap : Heap
  bHeap : Heap
  phase : Phase
  deriving DecidableEq, Repr

/-- One step either continues with a new state or returns μ with the exit
that produced it. -/
inductive StepRes where
  | cont (st : DState)
  | done (k : ExitKind) (res : M)
  deriving DecidableEq, Repr

/-- The termination check of the source, evaluated at the top of every
forward and backward loop iteration:
scores[(start, us)] + scores[(ut, goal)] >= μ. -/
def checkCond (s t : Nat) (st : DState) : Bool :=
  M.ble st.μ (M.add (scoreGet st.scores (s, st.us)) (scoreGet st.scores (st.ut, t)))

/-- The forward relaxation of one pulled edge: skip it and yield to the
backward direction when its target is forward-closed; otherwise relax the
(start, target) entry, push on improvement, and lower μ through the edge when
its target is backward-closed. -/
def relaxF (s t : Nat) (st : DState) (e : Edge) (rest : List Edge) : StepRes :=
  let next := e.tgt
  if next ∈ st.fClosed then
    .cont { st with fIter := rest, phase := .bwd }
  else
    let nScore := M.add (scoreGet st.scores (s, st.us)) (M.fin e.cost)
    let p : Scores × Heap :=
      match lookupScore st.scores (s, next) with
      | some old =>
        if M.blt nScore old then
          (setScore st.scores (s, next) nScore, (nScore, next) :: st.fHeap)
        else (st.scores, st.fHeap)
      | none => (((s, next), nScore) :: st.scores, (nScore, next) :: st.fHeap)
    let μ2 : M :=
      if next ∈ st.bClosed then
        M.minv st.μ
          (M.add (M.add (scoreGet p.1 (s, st.us)) (M.fin e.cost)) (scoreGet p.1 (next, t)))
      else st.μ
    .cont { st with fIter := rest, scores := p.1, fHeap := p.2, μ := μ2 }

/-- The backward relaxation of one pulled edge, mirror image of relaxF: the
relaxed node is the edge's source, the table key is (source-of-edge, goal),
and μ is lowered when that node is forward-closed. -/
def relaxB (s t : Nat) (st : DState) (e : Edge) (rest : List Edge) : StepRes :=
  let next := e.src
  if next ∈ st.bClosed then
    .cont { st with bIter := rest, phase := .fwd }
  else
    let nScore := M.add (scoreGet st.scores (st.ut, t)) (M.fin e.cost)
    let p : Scores × Heap :=
      match lookupScore st.scores (next, t) with
      | some old =>
        if M.blt nScore old then
          (setScore st.scores (next, t) nScore, (nScore, next) :: st.bHeap)
        else (st.scores, st.bHeap)
      | none => (((next, t), nScore) :: st.scores, (nScore, next) :: st.bHeap)
    let μ2 : M :=
      if next ∈ st.fClosed then
        M.minv st.μ
          (M.add (M.add (scoreGet p.1 (s, next)) (M.fin e.cost)) (scoreGet p.1 (st.ut, t)))
      else st.μ
    .cont { st with bIter := rest, scores := p.1, bHeap := p.2, μ := μ2 }

/-- One iteration of the 'forward loop: termination check, then pull an edge
and relax it, or close the next unclosed queued node and reset the cursor,
or exit because the forward queue is exhausted. -/
def forwardStep (g : Graph) (s t : Nat) (st : DState) : StepRes :=
  if checkCond s t st then .done .check st.μ
  else
    match st.fIter with
    | e :: rest => relaxF s t st e rest
    | [] =>
      match popUnclosed st.fHeap st.fClosed with
      | some (node, fh) =>
        .cont { st with fClosed := node :: st.fClosed, us := node,
                        fIter := outEdges g node, fHeap := fh }
      | none => .done .fxh st.μ

/-- One iteration of the 'backward loop, mirror image of forwardStep. -/
def backwardStep (g : Graph) (s t : Nat) (st : DState) : StepRes :=
  if checkCond s t st then .done .check st.μ
  else
    match st.bIter with
    | e :: rest => relaxB s t st e rest
    | [] =>
      match popUnclosed st.bHeap st.bClosed with
      | some (node, bh) =>
        .cont { st with bClosed := node :: st.bClosed, ut := node,
                        bIter := inEdges g node, bHeap := bh }
      | none => .done .bxh st.μ

/-- One step of the driver, in whichever direction is active. -/
def stepD (g : Graph) (s t : Nat) (st : DState) : StepRes :=
  match st.phase with
  | .fwd => forwardStep g s t st
  | .bwd => backwardStep g s t st

/-- Iterate the driver with fuel; none means the fuel ran out before the
source's loop exited. -/
def runD (g : Graph) (s t : Nat) : Nat → DState → Option (ExitKind × M)
  | 0, _ => none
  | fuel + 1, st =>
    match stepD g s t st with
    | .done k m => some (k, m)
    | .cont st' => runD g s t fuel st'

/-- The state of the search just before the 'outer loop: μ at the sentinel,
both anchors' self-entries seeded to zero, both anchors closed and active with
fresh cursors, both queues holding their anchor at score zero, the forward
direction about to move. -/
def initState (g : Graph) (s t : Nat) : DState where
  μ := M.inf
  scores := insertScore (insertScore [] (s, s) M.zero) (t, t) M.zero
  us := s
  ut := t
  fClosed := [s]
  bClosed := [t]
  fIter := outEdges g s
  bIter := inEdges g t
  fHeap := [(M.zero, s)]
  bHeap := [(M.zero, t)]
  phase := .fwd

/-- The embedded entry point: run the driver from the initial state; some μ
is the value the source returns, none means the given fuel was insufficient. -/
def bidirectional_dijkstra (g : Graph) (s t : Nat) (fuel : Nat) : Option M :=
  (runD g s t fuel (initState g s t)).map (fun p => p.2)

/-- Iterate the driver step by step, keeping the exit value once reached. -/
def stepN (g : Graph) (s t : Nat) : Nat → StepRes → StepRes
  | 0, r => r
  | n + 1, .done k m => stepN g s t n (.done k m)
  | n + 1, .cont st => stepN g s t n (stepD g s t st)

/-- The phase of a still-running step result. -/
def resPhase : StepRes → Option Phase
  | .cont st => some st.phase
  | .done _ _ => none

/-- The scores-table lookup of a still-running step result. -/
def resLookup (r : StepRes) (k : Nat × Nat) : Option (Option M) :=
  match r with
  | .cont st => some (lookupScore st.scores k)
  | .done _ _ => none

/-- Existence of a directed walk between two nodes; the empty walk makes
every node reach itself. -/
inductive Reach (g : Graph) : Nat → Nat → Prop where
  | refl (v : Nat) : Reach g v v
  | step (e : Edge) (w : Nat) (he : e ∈ g.edges) (hr : Reach g e.tgt w) : Reach g e.src w

/-- Modelled from the spec: the cheapest walk cost from s using at most k
edges, Bellman-Ford style; the basis of the single-source Dijkstra oracle,
whose implementation lives outside the audited source. -/
def distUpTo (g : Graph) (s : Nat) : Nat → Nat → M
  | 0, v => if v = s then M.zero else M.inf
  | k + 1, v =>
    (inEdges g v).foldr
      (fun e acc => M.minv acc (M.add (distUpTo g s k e.src) (M.fin e.cost)))
      (distUpTo g s k v)

/-- Modelled from the spec: the value of a standard single-source Dijkstra
run from s restricted to v, i.e. the true shortest-walk distance (walks of
at most nodes-many edges suffice on these graphs). -/
def dijkstra (g : Graph) (s v : Nat) : M := distUpTo g s g.nodes.length v

/-- A graph with one node and no edges at all. -/
def g1 : Graph := ⟨[0], []⟩

/-- A two-node graph whose only edges form the cycle 0 → 1 → 0, both unit
cost. -/
def gCyc : Graph := ⟨[0, 1], [⟨0, 1, 1⟩, ⟨1, 0, 1⟩]⟩

/-- Monotonicity scenario, original graph: 0 → 1 cost 1, 0 → 2 cost 2,
1 → 0 cost 50, 2 → 0 cost 3; the cheapest cycle through node 0 runs through
node 2 and costs 5. -/
def gC9 : Graph := ⟨[0, 1, 2], [⟨0, 1, 1⟩, ⟨0, 2, 2⟩, ⟨1, 0, 50⟩, ⟨2, 0, 3⟩]⟩

/-- Monotonicity scenario, perturbed graph: identical to gC9 except that the
single edge 0 → 1 had its cost increased from 1 to 3. -/
def gC9b : Graph := ⟨[0, 1, 2], [⟨0, 1, 3⟩, ⟨0, 2, 2⟩, ⟨1, 0, 50⟩, ⟨2, 0, 3⟩]⟩

/-- A four-node graph in which the forward frontier has two relaxations to
do in a row: 0 → 1 and 0 → 2, both unit cost; 3 is isolated. -/
def gAlt : Graph := ⟨[0, 1, 2, 3], [⟨0, 1, 1⟩, ⟨0, 2, 1⟩]⟩

/-- C1: the spec claims that for every pair (source, target) in the same
weakly-connected region the bidirectional result equals the single-source
Dijkstra value.  The pair (0, 0) on the one-node graph lies in one region,
the oracle gives zero (the empty path), yet the code returns the maximal
sentinel: μ is only ever lowered through relaxed edges, so the seeded
self-entries never produce a zero result.  The code contradicts its own
doc comment, which promises the length of the shortest path from start to
goal. -/
theorem C1_oracle_equivalence_fails_on_self_pair :
    bidirectional_dijkstra g1 0 0 5 = some M.inf ∧
      dijkstra g1 0 0 = M.zero ∧ M.inf ≠ M.zero := by
  refine ⟨by decide, by decide, by decide⟩

/-- C2: the spec claims the search returns zero whenever source = target,
arguing the seeded zero entries make the termination check fire at zero.
On the one-node graph with source = target = 0 the run instead ends by
forward-queue exhaustion with μ still at the maximal sentinel: the check
compares the seeded sum 0 against μ = sentinel, which fails, and no edge
ever lowers μ. -/
theorem C2_reflexivity_fails_on_isolated_node :
    runD g1 0 0 5 (initState g1 0 0) = some (ExitKind.fxh, M.inf) ∧
      M.inf ≠ M.zero := by
  refine ⟨by decide, by decide⟩

/-- C4: the spec claims μ equals the true shortest source-to-target distance
whenever the run terminates via the termination check.  With source =
target = 0 on the two-node unit cycle the run does terminate via the check,
but with μ = 2 (the cycle length), while the true shortest distance from a
node to itself is zero, as the oracle confirms. -/
theorem C4_mu_not_true_distance_at_check_termination :
    runD gCyc 0 0 20 (initState gCyc 0 0) = some (ExitKind.check, M.fin 2) ∧
      dijkstra gCyc 0 0 = M.zero ∧ M.fin 2 ≠ M.zero := by
  refine ⟨by decide, by decide, by decide⟩

/-- C8: adding any finite cost to the maximal sentinel of the measure used
by the search yields the maximal sentinel again, on either side: the
modelled addition saturates instead of wrapping. -/
theorem C8_sentinel_saturation :
    ∀ n : Nat, M.add M.inf (M.fin n) = M.inf ∧ M.add (M.fin n) M.inf = M.inf := by
  intro n
  exact ⟨rfl, rfl⟩

/-- C9: the spec claims that increasing the cost of a single edge never
decreases the returned value for any fixed pair.  gC9b is gC9 with the one
edge 0 → 1 made costlier (1 to 3), all other costs unchanged and
non-negative, yet for the fixed pair (0, 0) the returned value drops from
51 to 5: the cheaper cursor order of the original run makes both frontiers
miss the cheap cycle through node 2 and settle for the expensive one
through node 1.  The true shortest distance (and the shortest cycle) never
decreases under a cost increase, so the code contradicts its own promise of
shortest-path lengths. -/
theorem C9_monotonicity_fails_under_cost_increase :
    bidirectional_dijkstra gC9 0 0 100 = some (M.fin 51) ∧
      bidirectional_dijkstra gC9b 0 0 100 = some (M.fin 5) ∧
      M.blt (M.fin 5) (M.fin 51) = true := by
  refine ⟨by decide, by decide, by decide⟩

theorem relaxF_cont : ∀ (s t : Nat) (st : DState) (e : Edge) (rest : List Edge) (k : ExitKind)
    (m : M), relaxF s t st e rest ≠ .done k m := by
  intro s t st e rest k m h
  simp only [relaxF] at h
  split at h <;> simp at h

theorem relaxB_cont : ∀ (s t : Nat) (st : DState) (e : Edge) (rest : List Edge) (k : ExitKind)
    (m : M), relaxB s t st e rest ≠ .done k m := by
  intro s t st e rest k m h
  simp only [relaxB] at h
  split at h <;> simp at h

/-- A continuing forward iteration flips the phase exactly when the cursor
pulled an edge to a forward-closed node. -/
theorem forwardStep_phase_flip (g : Graph) (s t : Nat) (st st' : DState)
    (h : forwardStep g s t st = .cont st') :
    (st'.phase = Phase.bwd ∧ ∃ e rest, st.fIter = e :: rest ∧ e.tgt ∈ st.fClosed) ∨
      (st'.phase = st.phase ∧ ¬ ∃ e rest, st.fIter = e :: rest ∧ e.tgt ∈ st.fClosed) := by
  unfold forwardStep at h
  by_cases hc : checkCond s t st
  · rw [if_pos hc] at h; exact absurd h (by simp)
  rw [if_neg hc] at h
  cases hIt : st.fIter with
  | nil =>
    rw [hIt] at h
    right
    constructor
    · cases hpu : popUnclosed st.fHeap st.fClosed with
      | none => rw [hpu] at h; exact absurd h (by simp)
      | some p =>
        obtain ⟨node, fh⟩ := p
        rw [hpu] at h
        simp only [StepRes.cont.injEq] at h
        rw [← h]
    · rintro ⟨e, rest, h1, _⟩
      exact List.noConfusion h1
  | cons e rest =>
    rw [hIt] at h
    simp only [relaxF] at h
    by_cases hcl : e.tgt ∈ st.fClosed
    · rw [if_pos hcl] at h
      simp only [StepRes.cont.injEq] at h
      left
      exact ⟨by rw [← h], e, rest, rfl, hcl⟩
    · rw [if_neg hcl] at h
      right
      constructor
      · simp only [StepRes.cont.injEq] at h
        rw [← h]
      · rintro ⟨e', rest', h1, h2⟩
        injection h1 with he hr
        rw [← he] at h2
        exact hcl h2

/-- A continuing backward iteration flips the phase exactly when the cursor
pulled an edge from a backward-closed node. -/
theorem backwardStep_phase_flip (g : Graph) (s t : Nat) (st st' : DState)
    (h : backwardStep g s t st = .cont st') :
    (st'.phase = Phase.fwd ∧ ∃ e rest, st.bIter = e :: rest ∧ e.src ∈ st.bClosed) ∨
      (st'.phase = st.phase ∧ ¬ ∃ e rest, st.bIter = e :: rest ∧ e.src ∈ st.bClosed) := by
  unfold backwardStep at h
  by_cases hc : checkCond s t st
  · rw [if_pos hc] at h; exact absurd h (by simp)
  rw [if_neg hc] at h
  cases hIt : st.bIter with
  | nil =>
    rw [hIt] at h
    right
    constructor
    · cases hpu : popUnclosed st.bHeap st.bClosed with
      | none => rw [hpu] at h; exact absurd h (by simp)
      | some p =>
        obtain ⟨node, bh⟩ := p
        rw [hpu] at h
        simp only [StepRes.cont.injEq] at h
        rw [← h]
    · rintro ⟨e, rest, h1, _⟩
      exact List.noConfusion h1
  | cons e rest =>
    rw [hIt] at h
    simp only [relaxB] at h
    by_cases hcl : e.src ∈ st.bClosed
    · rw [if_pos hcl] at h
      simp only [StepRes.cont.injEq] at h
      left
      exact ⟨by rw [← h], e, rest, rfl, hcl⟩
    · rw [if_neg hcl] at h
      right
      constructor
      · simp only [StepRes.cont.injEq] at h
        rw [← h]
      · rintro ⟨e', rest', h1, h2⟩
        injection h1 with he hr
        rw [← he] at h2
        exact hcl h2

/-- C6: before each step of either direction the driver evaluates the check
table[source, active_forward] + table[active_backward, target] ≥ μ and, when
it holds, the run ends at once returning the current μ with the check exit;
when instead the active direction's cursor is spent and its priority queue
holds no unclosed candidate, the run also ends at once returning μ.  The
three state arguments instantiate the three exit scenarios. -/
theorem C6_termination_check_and_exhaustion
    (g : Graph) (s t f1 f2 f3 : Nat) (stC stF stB : DState)
    (hC : checkCond s t stC = true)
    (hFp : stF.phase = Phase.fwd) (hFi : stF.fIter = [])
    (hFq : popUnclosed stF.fHeap stF.fClosed = none)
    (hBp : stB.phase = Phase.bwd) (hBi : stB.bIter = [])
    (hBq : popUnclosed stB.bHeap stB.bClosed = none) :
    runD g s t (f1 + 1) stC = some (ExitKind.check, stC.μ) ∧
      (∃ k, runD g s t (f2 + 1) stF = some (k, stF.μ)) ∧
      (∃ k, runD g s t (f3 + 1) stB = some (k, stB.μ)) := by
  refine ⟨?_, ?_, ?_⟩
  · have hstep : stepD g s t stC = .done .check stC.μ := by
      cases hp : stC.phase <;> simp [stepD, hp, forwardStep, backwardStep, hC]
    simp [runD, hstep]
  · by_cases hc : checkCond s t stF
    · exact ⟨.check, by simp [runD, stepD, hFp, forwardStep, hc]⟩
    · exact ⟨.fxh, by simp [runD, stepD, hFp, forwardStep, hc, hFi, hFq]⟩
  · by_cases hc : checkCond s t stB
    · exact ⟨.check, by simp [runD, stepD, hBp, backwardStep, hc]⟩
    · exact ⟨.bxh, by simp [runD, stepD, hBp, backwardStep, hc, hBi, hBq]⟩

/-- C6 witness: on the one-node graph, a state with μ lowered to zero makes
the check fire; the initial state itself has a spent forward cursor and an
all-closed queue; flipping its phase gives the backward analogue. -/
theorem C6_termination_check_and_exhaustion_witness :
    checkCond 0 0 { initState g1 0 0 with μ := M.zero } = true ∧
      runD g1 0 0 1 { initState g1 0 0 with μ := M.zero } =
        some (ExitKind.check, M.zero) ∧
      (∃ k, runD g1 0 0 1 (initState g1 0 0) = some (k, M.inf)) ∧
      (∃ k, runD g1 0 0 1 { initState g1 0 0 with phase := Phase.bwd } =
        some (k, M.inf)) := by
  have h := C6_termination_check_and_exhaustion g1 0 0 0 0 0
    { initState g1 0 0 with μ := M.zero } (initState g1 0 0)
    { initState g1 0 0 with phase := Phase.bwd }
    (by decide) (by decide) (by decide) (by decide) (by decide) (by decide) (by decide)
  exact ⟨by decide, h.1, h.2.1, h.2.2⟩

/-- C7 (amended): the driver does not hand control to the other direction
after every single relaxation; while one direction runs, control passes to
the opposite direction exactly when the active direction pulls an edge whose
relaxed endpoint is already closed on its own side (and the search may also
end instead).  Formally, a continuing forward step flips the phase iff the
cursor yields an edge whose target is forward-closed, and symmetrically for
backward steps. -/
theorem C7_yield_on_closed_duplicate
    (g : Graph) (s t : Nat) (stF stF' stB stB' : DState)
    (hFp : stF.phase = Phase.fwd) (hF : stepD g s t stF = .cont stF')
    (hBp : stB.phase = Phase.bwd) (hB : stepD g s t stB = .cont stB') :
    (stF'.phase = Phase.bwd ↔ ∃ e rest, stF.fIter = e :: rest ∧ e.tgt ∈ stF.fClosed) ∧
      (stB'.phase = Phase.fwd ↔ ∃ e rest, stB.bIter = e :: rest ∧ e.src ∈ stB.bClosed) := by
  simp only [stepD, hFp] at hF
  simp only [stepD, hBp] at hB
  constructor
  · rcases forwardStep_phase_flip g s t stF stF' hF with ⟨h1, h2⟩ | ⟨h1, h2⟩
    · exact iff_of_true h1 h2
    · refine iff_of_false ?_ h2
      rw [h1, hFp]
      simp
  · rcases backwardStep_phase_flip g s t stB stB' hB with ⟨h1, h2⟩ | ⟨h1, h2⟩
    · exact iff_of_true h1 h2
    · refine iff_of_false ?_ h2
      rw [h1, hBp]
      simp

/-- A hand-built forward state about to pull the edge 0 → 1 whose target is
already forward-closed: the step must yield to the backward direction. -/
def stC7f : DState where
  μ := M.inf
  scores := [((0, 0), M.zero), ((1, 1), M.zero)]
  us := 0
  ut := 1
  fClosed := [1, 0]
  bClosed := [1]
  fIter := [⟨0, 1, 5⟩]
  bIter := []
  fHeap := []
  bHeap := []
  phase := .fwd

/-- The mirror state for the backward direction: about to pull the edge
0 → 1 whose source is already backward-closed. -/
def stC7b : DState where
  μ := M.inf
  scores := [((0, 0), M.zero), ((1, 1), M.zero)]
  us := 0
  ut := 1
  fClosed := [0]
  bClosed := [0, 1]
  fIter := []
  bIter := [⟨0, 1, 5⟩]
  fHeap := []
  bHeap := []
  phase := .bwd

/-- C7 witness: the amended statement instantiated at the two hand-built
states: both continue, and the phase flips exactly as the closed-duplicate
pull dictates. -/
theorem C7_yield_on_closed_duplicate_witness :
    stC7f.phase = Phase.fwd ∧
      stepD gCyc 0 1 stC7f = .cont { stC7f with fIter := [], phase := .bwd } ∧
      stC7b.phase = Phase.bwd ∧
      stepD gCyc 0 1 stC7b = .cont { stC7b with bIter := [], phase := .fwd } ∧
      ({ stC7f with fIter := ([] : List Edge), phase := Phase.bwd } : DState).phase
        = Phase.bwd ∧
      ({ stC7b with bIter := ([] : List Edge), phase := Phase.fwd } : DState).phase
        = Phase.fwd := by
  have h := C7_yield_on_closed_duplicate gCyc 0 1
    stC7f { stC7f with fIter := [], phase := .bwd }
    stC7b { stC7b with bIter := [], phase := .fwd }
    rfl (by decide) rfl (by decide)
  exact ⟨rfl, by decide, rfl, by decide, h.1.mpr ⟨⟨0, 1, 5⟩, [], rfl, by decide⟩,
    h.2.mpr ⟨⟨0, 1, 5⟩, [], rfl, by decide⟩⟩

theorem M.add_inf_right (a : M) : M.add a M.inf = M.inf := by
  cases a <;> rfl

theorem M.add_inf_left (a : M) : M.add M.inf a = M.inf := by
  cases a <;> rfl

theorem M.minv_cases (a b : M) : M.minv a b = a ∨ M.minv a b = b := by
  unfold M.minv
  split
  · exact Or.inl rfl
  · exact Or.inr rfl

/-- A walk may be extended by one edge at its end. -/
theorem Reach.snoc {g : Graph} {s u : Nat} (h : Reach g s u) (e : Edge)
    (he : e ∈ g.edges) (hs : e.src = u) : Reach g s e.tgt := by
  induction h with
  | refl v => exact hs ▸ Reach.step e e.tgt he (Reach.refl e.tgt)
  | step e' w he' hr ih => exact Reach.step e' e.tgt he' (ih hs)

theorem Reach.trans {g : Graph} {a b c : Nat} (h1 : Reach g a b) (h2 : Reach g b c) :
    Reach g a c := by
  induction h1 with
  | refl v => exact h2
  | step e w he hr ih => exact Reach.step e c he (ih h2)

theorem lookupScore_cons {k k' : Nat × Nat} {v d : M} {sc : Scores}
    (h : lookupScore ((k, v) :: sc) k' = some d) :
    (k' = k ∧ d = v) ∨ (k' ≠ k ∧ lookupScore sc k' = some d) := by
  by_cases hk : k = k'
  · subst hk
    simp [lookupScore] at h
    exact Or.inl ⟨rfl, h.symm⟩
  · rw [lookupScore, if_neg hk] at h
    exact Or.inr ⟨fun hx => hk hx.symm, h⟩

theorem setScore_lookup {sc : Scores} {k k' : Nat × Nat} {v d : M}
    (h : lookupScore (setScore sc k v) k' = some d) :
    k' = k ∨ lookupScore sc k' = some d := by
  induction sc with
  | nil => simp [setScore, lookupScore] at h
  | cons p rest ih =>
    obtain ⟨kp, vp⟩ := p
    by_cases hk : kp = k
    · subst hk
      rw [setScore, if_pos rfl] at h
      rcases lookupScore_cons h with ⟨h1, _⟩ | ⟨h1, h2⟩
      · exact Or.inl h1
      · rw [lookupScore, if_neg (fun hx => h1 hx.symm)]
        exact Or.inr h2
    · rw [setScore, if_neg hk] at h
      rcases lookupScore_cons h with ⟨h1, h2⟩ | ⟨h1, h2⟩
      · subst h1
        rw [lookupScore, if_pos rfl]
        exact Or.inr (by rw [h2])
      · rcases ih h2 with h3 | h3
        · exact Or.inl h3
        · rw [lookupScore, if_neg (fun hx => h1 hx.symm)]
          exact Or.inr h3

theorem insertScore_lookup {sc : Scores} {k k' : Nat × Nat} {v d : M}
    (h : lookupScore (insertScore sc k v) k' = some d) :
    k' = k ∨ lookupScore sc k' = some d := by
  unfold insertScore at h
  cases hlk : lookupScore sc k with
  | some old =>
    rw [hlk] at h
    exact setScore_lookup h
  | none =>
    rw [hlk] at h
    rcases lookupScore_cons h with ⟨h1, _⟩ | ⟨_, h2⟩
    · exact Or.inl h1
    · exact Or.inr h2

/-- popMin takes one element out of the heap and leaves the rest. -/
theorem popMin_perm : ∀ {h : Heap} {y : M × Nat} {rest : Heap},
    popMin h = some (y, rest) → h.Perm (y :: rest) := by
  intro h
  induction h with
  | nil => intro y rest heq; simp [popMin] at heq
  | cons x xs ih =>
    intro y rest heq
    cases hxs : popMin xs with
    | none =>
      have : xs = [] := popMin_eq_none hxs
      subst this
      simp only [popMin] at heq
      simp at heq
      obtain ⟨rfl, rfl⟩ := heq
      exact List.Perm.refl _
    | some z =>
      obtain ⟨z1, zrest⟩ := z
      simp only [popMin, hxs] at heq
      split at heq
      · simp at heq
        obtain ⟨rfl, rfl⟩ := heq
        exact List.Perm.refl _
      · simp at heq
        obtain ⟨rfl, rfl⟩ := heq
        exact ((ih hxs).cons x).trans (List.Perm.swap z1 x zrest)

theorem popUnclosedAux_mem : ∀ (f : Nat) (h : Heap) (c : List Nat) (n : Nat) (rest : Heap),
    popUnclosedAux f h c = some (n, rest) →
      n ∉ c ∧ (∃ k, (k, n) ∈ h) ∧ ∀ p, p ∈ rest → p ∈ h := by
  intro f
  induction f with
  | zero => intro h c n rest heq; simp [popUnclosedAux] at heq
  | succ m ih =>
    intro h c n rest heq
    cases hpm : popMin h with
    | none => simp [popUnclosedAux, hpm] at heq
    | some y =>
      obtain ⟨⟨k0, n0⟩, r0⟩ := y
      simp only [popUnclosedAux, hpm] at heq
      have hperm := popMin_perm hpm
      by_cases hc : n0 ∈ c
      · rw [if_pos hc] at heq
        obtain ⟨h1, ⟨k1, h2⟩, h3⟩ := ih r0 c n rest heq
        refine ⟨h1, ⟨k1, ?_⟩, fun p hp => ?_⟩
        · exact hperm.mem_iff.mpr (List.mem_cons_of_mem _ h2)
        · exact hperm.mem_iff.mpr (List.mem_cons_of_mem _ (h3 p hp))
      · rw [if_neg hc] at heq
        simp at heq
        obtain ⟨rfl, rfl⟩ := heq
        refine ⟨hc, ⟨k0, hperm.mem_iff.mpr (List.mem_cons_self _ _)⟩, fun p hp => ?_⟩
        exact hperm.mem_iff.mpr (List.mem_cons_of_mem _ hp)

theorem popUnclosed_mem {h : Heap} {c : List Nat} {n : Nat} {rest : Heap}
    (heq : popUnclosed h c = some (n, rest)) :
    n ∉ c ∧ (∃ k, (k, n) ∈ h) ∧ ∀ p, p ∈ rest → p ∈ h :=
  popUnclosedAux_mem h.length h c n rest heq

theorem mem_outEdges {g : Graph} {u : Nat} {e : Edge} (h : e ∈ outEdges g u) :
    e ∈ g.edges ∧ e.src = u := by
  unfold outEdges at h
  rw [List.mem_filter] at h
  exact ⟨h.1, by simpa using h.2⟩

theorem mem_inEdges {g : Graph} {u : Nat} {e : Edge} (h : e ∈ inEdges g u) :
    e ∈ g.edges ∧ e.tgt = u := by
  unfold inEdges at h
  rw [List.mem_filter] at h
  exact ⟨h.1, by simpa using h.2⟩

theorem M.ble_inf (a : M) : M.ble a M.inf = true := by cases a <;> rfl

theorem M.minv_inf (a : M) : M.minv a M.inf = a := by
  unfold M.minv
  rw [M.ble_inf]
  rfl

/-- The reachability discipline of the scores table: forward entries name
nodes reachable from the source, backward entries nodes reaching the
target. -/
def ScInv (g : Graph) (s t : Nat) (sc : Scores) : Prop :=
  (∀ x d, lookupScore sc (s, x) = some d → Reach g s x) ∧
  (∀ x d, lookupScore sc (x, t) = some d → Reach g x t)

theorem ScInv_consF {g : Graph} {s t : Nat} {sc : Scores} (h : ScInv g s t sc)
    (n : Nat) (v : M) (hn : Reach g s n) : ScInv g s t (((s, n), v) :: sc) := by
  constructor
  · intro x d hx
    rcases lookupScore_cons hx with ⟨h1, _⟩ | ⟨_, h2⟩
    · have hx2 : x = n := by simpa using congrArg Prod.snd h1
      rw [hx2]
      exact hn
    · exact h.1 x d h2
  · intro x d hx
    rcases lookupScore_cons hx with ⟨h1, _⟩ | ⟨_, h2⟩
    · have hx1 : x = s := by simpa using congrArg Prod.fst h1
      have hx2 : t = n := by simpa using congrArg Prod.snd h1
      rw [hx1, hx2]
      exact hn
    · exact h.2 x d h2

theorem ScInv_setF {g : Graph} {s t : Nat} {sc : Scores} (h : ScInv g s t sc)
    (n : Nat) (v : M) (hn : Reach g s n) : ScInv g s t (setScore sc (s, n) v) := by
  constructor
  · intro x d hx
    rcases setScore_lookup hx with h1 | h1
    · have hx2 : x = n := by simpa using congrArg Prod.snd h1
      rw [hx2]
      exact hn
    · exact h.1 x d h1
  · intro x d hx
    rcases setScore_lookup hx with h1 | h1
    · have hx1 : x = s := by simpa using congrArg Prod.fst h1
      have hx2 : t = n := by simpa using congrArg Prod.snd h1
      rw [hx1, hx2]
      exact hn
    · exact h.2 x d h1

theorem ScInv_consB {g : Graph} {s t : Nat} {sc : Scores} (h : ScInv g s t sc)
    (n : Nat) (v : M) (hn : Reach g n t) : ScInv g s t (((n, t), v) :: sc) := by
  constructor
  · intro x d hx
    rcases lookupScore_cons hx with ⟨h1, _⟩ | ⟨_, h2⟩
    · have hx1 : s = n := by simpa using congrArg Prod.fst h1
      have hx2 : x = t := by simpa using congrArg Prod.snd h1
      rw [hx1, hx2]
      exact hn
    · exact h.1 x d h2
  · intro x d hx
    rcases lookupScore_cons hx with ⟨h1, _⟩ | ⟨_, h2⟩
    · have hx1 : x = n := by simpa using congrArg Prod.fst h1
      rw [hx1]
      exact hn
    · exact h.2 x d h2

theorem ScInv_setB {g : Graph} {s t : Nat} {sc : Scores} (h : ScInv g s t sc)
    (n : Nat) (v : M) (hn : Reach g n t) : ScInv g s t (setScore sc (n, t) v) := by
  constructor
  · intro x d hx
    rcases setScore_lookup hx with h1 | h1
    · have hx1 : s = n := by simpa using congrArg Prod.fst h1
      have hx2 : x = t := by simpa using congrArg Prod.snd h1
      rw [hx1, hx2]
      exact hn
    · exact h.1 x d h1
  · intro x d hx
    rcases setScore_lookup hx with h1 | h1
    · have hx1 : x = n := by simpa using congrArg Prod.fst h1
      rw [hx1]
      exact hn
    · exact h.2 x d h1

/-- Lowering μ through a forward meeting edge keeps the walk witness: the
candidate ends in a backward table read for the relaxed node. -/
theorem muF_inv {g : Graph} {s t n : Nat} (μ a c : M) (sc : Scores)
    (hm : μ = M.inf ∨ Reach g s t)
    (hsB : ∀ x d, lookupScore sc (x, t) = some d → Reach g x t)
    (hn : Reach g s n) :
    M.minv μ (M.add (M.add a c) (scoreGet sc (n, t))) = M.inf ∨ Reach g s t := by
  cases hlk : lookupScore sc (n, t) with
  | none =>
    unfold scoreGet
    rw [hlk]
    simp only [Option.getD_none]
    rw [M.add_inf_right, M.minv_inf]
    exact hm
  | some d => exact Or.inr (hn.trans (hsB n d hlk))

/-- Lowering μ through a backward meeting edge keeps the walk witness: the
candidate starts with a forward table read for the relaxed node. -/
theorem muB_inv {g : Graph} {s t n : Nat} (μ b c : M) (sc : Scores)
    (hm : μ = M.inf ∨ Reach g s t)
    (hsF : ∀ x d, lookupScore sc (s, x) = some d → Reach g s x)
    (hn : Reach g n t) :
    M.minv μ (M.add (M.add (scoreGet sc (s, n)) c) b) = M.inf ∨ Reach g s t := by
  cases hlk : lookupScore sc (s, n) with
  | none =>
    unfold scoreGet
    rw [hlk]
    simp only [Option.getD_none]
    rw [M.add_inf_left, M.add_inf_left, M.minv_inf]
    exact hm
  | some d => exact Or.inr ((hsF n d hlk).trans hn)

/-- The reachability invariant of a running search: every forward table
entry names a node reachable from the source, every backward entry a node
that reaches the target, a μ below the sentinel witnesses a source-to-target
walk, cursors hold edges of the graph anchored at the active nodes, the
active nodes are reachable, and so is everything queued. -/
structure InvR (g : Graph) (s t : Nat) (st : DState) : Prop where
  sF : ∀ x d, lookupScore st.scores (s, x) = some d → Reach g s x
  sB : ∀ x d, lookupScore st.scores (x, t) = some d → Reach g x t
  hμ : st.μ = M.inf ∨ Reach g s t
  fI : ∀ e, e ∈ st.fIter → e ∈ g.edges ∧ e.src = st.us
  bI : ∀ e, e ∈ st.bIter → e ∈ g.edges ∧ e.tgt = st.ut
  usR : Reach g s st.us
  utR : Reach g st.ut t
  fH : ∀ p, p ∈ st.fHeap → Reach g s p.2
  bH : ∀ p, p ∈ st.bHeap → Reach g p.2 t

theorem stepD_done_eq {g : Graph} {s t : Nat} {st : DState} {k : ExitKind} {m : M}
    (h : stepD g s t st = .done k m) : m = st.μ := by
  unfold stepD at h
  cases hp : st.phase <;> rw [hp] at h
  · unfold forwardStep at h
    by_cases hc : checkCond s t st
    · rw [if_pos hc] at h
      simp at h
      exact h.2.symm
    rw [if_neg hc] at h
    cases hIt : st.fIter with
    | cons e rest =>
      rw [hIt] at h
      exact absurd h (relaxF_cont s t st e rest k m)
    | nil =>
      rw [hIt] at h
      cases hpu : popUnclosed st.fHeap st.fClosed with
      | some p => rw [hpu] at h; simp at h
      | none => rw [hpu] at h; simp at h; exact h.2.symm
  · unfold backwardStep at h
    by_cases hc : checkCond s t st
    · rw [if_pos hc] at h
      simp at h
      exact h.2.symm
    rw [if_neg hc] at h
    cases hIt : st.bIter with
    | cons e rest =>
      rw [hIt] at h
      exact absurd h (relaxB_cont s t st e rest k m)
    | nil =>
      rw [hIt] at h
      cases hpu : popUnclosed st.bHeap st.bClosed with
      | some p => rw [hpu] at h; simp at h
      | none => rw [hpu] at h; simp at h; exact h.2.symm

theorem relaxF_inv {g : Graph} {s t : Nat} {st st' : DState} {e : Edge} {rest : List Edge}
    (hInv : InvR g s t st) (he : e ∈ g.edges) (hsrc : e.src = st.us)
    (hrest : ∀ e', e' ∈ rest → e' ∈ g.edges ∧ e'.src = st.us)
    (h : relaxF s t st e rest = .cont st') : InvR g s t st' := by
  have hnext : Reach g s e.tgt := hInv.usR.snoc e he hsrc
  have hsc : ScInv g s t st.scores := ⟨hInv.sF, hInv.sB⟩
  by_cases hcl : e.tgt ∈ st.fClosed
  · simp only [relaxF, hcl, if_true] at h
    simp only [StepRes.cont.injEq] at h
    subst h
    exact { hInv with fI := hrest }
  · cases hlk : lookupScore st.scores (s, e.tgt) with
    | none =>
      simp only [relaxF, hcl, if_false, hlk] at h
      simp only [StepRes.cont.injEq] at h
      subst h
      have hsc' := ScInv_consF hsc e.tgt
        (M.add (scoreGet st.scores (s, st.us)) (M.fin e.cost)) hnext
      refine { sF := hsc'.1, sB := hsc'.2, hμ := ?_, fI := hrest, bI := hInv.bI,
               usR := hInv.usR, utR := hInv.utR, fH := ?_, bH := hInv.bH }
      · show (if e.tgt ∈ st.bClosed then _ else st.μ) = M.inf ∨ _
        by_cases hbc : e.tgt ∈ st.bClosed
        · rw [if_pos hbc]
          exact muF_inv _ _ _ _ hInv.hμ hsc'.2 hnext
        · rw [if_neg hbc]
          exact hInv.hμ
      · intro p hp
        rcases List.mem_cons.mp hp with h1 | h1
        · rw [h1]
          exact hnext
        · exact hInv.fH p h1
    | some old =>
      by_cases hblt : M.blt (M.add (scoreGet st.scores (s, st.us)) (M.fin e.cost)) old = true
      · simp only [relaxF, hcl, if_false, hlk, hblt, if_true] at h
        simp only [StepRes.cont.injEq] at h
        subst h
        have hsc' := ScInv_setF hsc e.tgt
          (M.add (scoreGet st.scores (s, st.us)) (M.fin e.cost)) hnext
        refine { sF := hsc'.1, sB := hsc'.2, hμ := ?_, fI := hrest, bI := hInv.bI,
                 usR := hInv.usR, utR := hInv.utR, fH := ?_, bH := hInv.bH }
        · show (if e.tgt ∈ st.bClosed then _ else st.μ) = M.inf ∨ _
          by_cases hbc : e.tgt ∈ st.bClosed
          · rw [if_pos hbc]
            exact muF_inv _ _ _ _ hInv.hμ hsc'.2 hnext
          · rw [if_neg hbc]
            exact hInv.hμ
        · intro p hp
          rcases List.mem_cons.mp hp with h1 | h1
          · rw [h1]
            exact hnext
          · exact hInv.fH p h1
      · simp only [relaxF, hcl, if_false, hlk, hblt] at h
        simp only [StepRes.cont.injEq] at h
        subst h
        refine { sF := hInv.sF, sB := hInv.sB, hμ := ?_, fI := hrest, bI := hInv.bI,
                 usR := hInv.usR, utR := hInv.utR, fH := hInv.fH, bH := hInv.bH }
        · show (if e.tgt ∈ st.bClosed then _ else st.μ) = M.inf ∨ _
          by_cases hbc : e.tgt ∈ st.bClosed
          · rw [if_pos hbc]
            exact muF_inv _ _ _ _ hInv.hμ hInv.sB hnext
          · rw [if_neg hbc]
            exact hInv.hμ

theorem relaxB_inv {g : Graph} {s t : Nat} {st st' : DState} {e : Edge} {rest : List Edge}
    (hInv : InvR g s t st) (he : e ∈ g.edges) (htgt : e.tgt = st.ut)
    (hrest : ∀ e', e' ∈ rest → e' ∈ g.edges ∧ e'.tgt = st.ut)
    (h : relaxB s t st e rest = .cont st') : InvR g s t st' := by
  have hnext : Reach g e.src t := Reach.step e t he (by rw [htgt]; exact hInv.utR)
  have hsc : ScInv g s t st.scores := ⟨hInv.sF, hInv.sB⟩
  by_cases hcl : e.src ∈ st.bClosed
  · simp only [relaxB, hcl, if_true] at h
    simp only [StepRes.cont.injEq] at h
    subst h
    exact { hInv with bI := hrest }
  · cases hlk : lookupScore st.scores (e.src, t) with
    | none =>
      simp only [relaxB, hcl, if_false, hlk] at h
      simp only [StepRes.cont.injEq] at h
      subst h
      have hsc' := ScInv_consB hsc e.src
        (M.add (scoreGet st.scores (st.ut, t)) (M.fin e.cost)) hnext
      refine { sF := hsc'.1, sB := hsc'.2, hμ := ?_, fI := hInv.fI, bI := hrest,
               usR := hInv.usR, utR := hInv.utR, fH := hInv.fH, bH := ?_ }
      · show (if e.src ∈ st.fClosed then _ else st.μ) = M.inf ∨ _
        by_cases hbc : e.src ∈ st.fClosed
        · rw [if_pos hbc]
          exact muB_inv _ _ _ _ hInv.hμ hsc'.1 hnext
        · rw [if_neg hbc]
          exact hInv.hμ
      · intro p hp
        rcases List.mem_cons.mp hp with h1 | h1
        · rw [h1]
          exact hnext
        · exact hInv.bH p h1
    | some old =>
      by_cases hblt : M.blt (M.add (scoreGet st.scores (st.ut, t)) (M.fin e.cost)) old = true
      · simp only [relaxB, hcl, if_false, hlk, hblt, if_true] at h
        simp only [StepRes.cont.injEq] at h
        subst h
        have hsc' := ScInv_setB hsc e.src
          (M.add (scoreGet st.scores (st.ut, t)) (M.fin e.cost)) hnext
        refine { sF := hsc'.1, sB := hsc'.2, hμ := ?_, fI := hInv.fI, bI := hrest,
                 usR := hInv.usR, utR := hInv.utR, fH := hInv.fH, bH := ?_ }
        · show (if e.src ∈ st.fClosed then _ else st.μ) = M.inf ∨ _
          by_cases hbc : e.src ∈ st.fClosed
          · rw [if_pos hbc]
            exact muB_inv _ _ _ _ hInv.hμ hsc'.1 hnext
          · rw [if_neg hbc]
            exact hInv.hμ
        · intro p hp
          rcases List.mem_cons.mp hp with h1 | h1
          · rw [h1]
            exact hnext
          · exact hInv.bH p h1
      · simp only [relaxB, hcl, if_false, hlk, hblt] at h
        simp only [StepRes.cont.injEq] at h
        subst h
        refine { sF := hInv.sF, sB := hInv.sB, hμ := ?_, fI := hInv.fI, bI := hrest,
                 usR := hInv.usR, utR := hInv.utR, fH := hInv.fH, bH := hInv.bH }
        · show (if e.src ∈ st.fClosed then _ else st.μ) = M.inf ∨ _
          by_cases hbc : e.src ∈ st.fClosed
          · rw [if_pos hbc]
            exact muB_inv _ _ _ _ hInv.hμ hInv.sF hnext
          · rw [if_neg hbc]
            exact hInv.hμ

/-- One continuing step of the driver preserves the reachability invariant. -/
theorem stepD_inv {g : Graph} {s t : Nat} {st st' : DState}
    (hInv : InvR g s t st) (h : stepD g s t st = .cont st') : InvR g s t st' := by
  unfold stepD at h
  cases hp : st.phase <;> rw [hp] at h
  · unfold forwardStep at h
    by_cases hc : checkCond s t st
    · rw [if_pos hc] at h
      exact absurd h (by simp)
    rw [if_neg hc] at h
    cases hIt : st.fIter with
    | cons e rest =>
      rw [hIt] at h
      have he := hInv.fI e (by rw [hIt]; exact List.mem_cons_self e rest)
      exact relaxF_inv hInv he.1 he.2
        (fun e' he' => hInv.fI e' (by rw [hIt]; exact List.mem_cons_of_mem e he')) h
    | nil =>
      rw [hIt] at h
      cases hpu : popUnclosed st.fHeap st.fClosed with
      | none =>
        rw [hpu] at h
        exact absurd h (by simp)
      | some p =>
        obtain ⟨node, fh⟩ := p
        rw [hpu] at h
        simp only [StepRes.cont.injEq] at h
        subst h
        obtain ⟨hnc, ⟨k0, hkmem⟩, hsub⟩ := popUnclosed_mem hpu
        exact { sF := hInv.sF, sB := hInv.sB, hμ := hInv.hμ,
                fI := fun e' he' => mem_outEdges he', bI := hInv.bI,
                usR := hInv.fH (k0, node) hkmem, utR := hInv.utR,
                fH := fun p hp => hInv.fH p (hsub p hp), bH := hInv.bH }
  · unfold backwardStep at h
    by_cases hc : checkCond s t st
    · rw [if_pos hc] at h
      exact absurd h (by simp)
    rw [if_neg hc] at h
    cases hIt : st.bIter with
    | cons e rest =>
      rw [hIt] at h
      have he := hInv.bI e (by rw [hIt]; exact List.mem_cons_self e rest)
      exact relaxB_inv hInv he.1 he.2
        (fun e' he' => hInv.bI e' (by rw [hIt]; exact List.mem_cons_of_mem e he')) h
    | nil =>
      rw [hIt] at h
      cases hpu : popUnclosed st.bHeap st.bClosed with
      | none =>
        rw [hpu] at h
        exact absurd h (by simp)
      | some p =>
        obtain ⟨node, bh⟩ := p
        rw [hpu] at h
        simp only [StepRes.cont.injEq] at h
        subst h
        obtain ⟨hnc, ⟨k0, hkmem⟩, hsub⟩ := popUnclosed_mem hpu
        exact { sF := hInv.sF, sB := hInv.sB, hμ := hInv.hμ,
                fI := hInv.fI, bI := fun e' he' => mem_inEdges he',
                usR := hInv.usR, utR := hInv.bH (k0, node) hkmem,
                fH := hInv.fH, bH := fun p hp => hInv.bH p (hsub p hp) }

/-- The initial state satisfies the reachability invariant. -/
theorem initState_inv (g : Graph) (s t : Nat) : InvR g s t (initState g s t) := by
  refine { sF := ?_, sB := ?_, hμ := Or.inl rfl, fI := ?_, bI := ?_,
           usR := Reach.refl s, utR := Reach.refl t, fH := ?_, bH := ?_ }
  · intro x d hx
    rcases insertScore_lookup hx with h1 | h1
    · have hx1 : s = t := by simpa using congrArg Prod.fst h1
      have hx2 : x = t := by simpa using congrArg Prod.snd h1
      rw [hx2, hx1]
      exact Reach.refl t
    · rcases insertScore_lookup h1 with h2 | h2
      · have hx2 : x = s := by simpa using congrArg Prod.snd h2
        rw [hx2]
        exact Reach.refl s
      · simp [lookupScore] at h2
  · intro x d hx
    rcases insertScore_lookup hx with h1 | h1
    · have hx1 : x = t := by simpa using congrArg Prod.fst h1
      rw [hx1]
      exact Reach.refl t
    · rcases insertScore_lookup h1 with h2 | h2
      · have hx1 : x = s := by simpa using congrArg Prod.fst h2
        have hx2 : t = s := by simpa using congrArg Prod.snd h2
        rw [hx1, hx2]
        exact Reach.refl s
      · simp [lookupScore] at h2
  · exact fun e he => mem_outEdges he
  · exact fun e he => mem_inEdges he
  · intro p hp
    rw [List.mem_singleton.mp hp]
    exact Reach.refl s
  · intro p hp
    rw [List.mem_singleton.mp hp]
    exact Reach.refl t

/-- Any value a terminating run can hand back is the sentinel or the length
witness of an actual source-to-target walk. -/
theorem runD_inv {g : Graph} {s t : Nat} : ∀ (fuel : Nat) (st : DState) (k : ExitKind) (m : M),
    InvR g s t st → runD g s t fuel st = some (k, m) → m = M.inf ∨ Reach g s t := by
  intro fuel
  induction fuel with
  | zero =>
    intro st k m _ h
    simp [runD] at h
  | succ n ih =>
    intro st k m hInv h
    simp only [runD] at h
    cases hs : stepD g s t st with
    | done k2 m2 =>
      rw [hs] at h
      simp at h
      obtain ⟨rfl, rfl⟩ := h
      rcases hInv.hμ with h1 | h1
      · exact Or.inl (by rw [stepD_done_eq hs]; exact h1)
      · exact Or.inr h1
    | cont st2 =>
      rw [hs] at h
      exact ih st2 k m (stepD_inv hInv hs) h

/-- C3: whenever no directed path from source to target exists, any value a
terminating run returns is the maximal sentinel, delivered as an ordinary
return value.  μ can only drop below the sentinel through a relaxation whose
two table reads stitch an actual source-to-target walk together, and no such
walk exists. -/
theorem C3_unreachable_returns_sentinel (g : Graph) (s t fuel : Nat)
    (k : ExitKind) (m : M) (hnr : ¬ Reach g s t)
    (hrun : runD g s t fuel (initState g s t) = some (k, m)) : m = M.inf :=
  (runD_inv fuel (initState g s t) k m (initState_inv g s t) hrun).resolve_right hnr

/-- Two isolated nodes: no edge at all, so node 1 is unreachable from 0. -/
def gTwo : Graph := ⟨[0, 1], []⟩

/-- C3 witness: the unreachable pair (0, 1) on the edgeless two-node graph;
the run terminates by forward exhaustion and the theorem pins the returned
value to the sentinel. -/
theorem C3_unreachable_returns_sentinel_witness :
    (¬ Reach gTwo 0 1) ∧
      runD gTwo 0 1 3 (initState gTwo 0 1) = some (ExitKind.fxh, M.inf) ∧
      M.inf = M.inf := by
  have hall : ∀ a b : Nat, Reach gTwo a b → a = b := by
    intro a b h
    induction h with
    | refl v => rfl
    | step e w he hr ih => simp [gTwo] at he
  have hnr : ¬ Reach gTwo 0 1 := fun h => absurd (hall 0 1 h) (by decide)
  exact ⟨hnr, by decide,
    C3_unreachable_returns_sentinel gTwo 0 1 3 ExitKind.fxh M.inf hnr (by decide)⟩

/-- C7 counterexample: the claim of strict alternation with one relaxation
unit per step is false: on gAlt from source 0 the first two driver steps are
both forward relaxations — after step one the entry for node 1 exists and
node 2 has none, after step two node 2's entry exists too, and the phase is
still forward at both points, so no backward unit separated the two forward
units. -/
theorem C7_strict_alternation_counterexample :
    (initState gAlt 0 3).phase = Phase.fwd ∧
      resPhase (stepN gAlt 0 3 1 (StepRes.cont (initState gAlt 0 3))) = some Phase.fwd ∧
      resLookup (stepN gAlt 0 3 1 (StepRes.cont (initState gAlt 0 3))) (0, 1) =
        some (some (M.fin 1)) ∧
      resLookup (stepN gAlt 0 3 1 (StepRes.cont (initState gAlt 0 3))) (0, 2) = some none ∧
      resPhase (stepN gAlt 0 3 2 (StepRes.cont (initState gAlt 0 3))) = some Phase.fwd ∧
      resLookup (stepN gAlt 0 3 2 (StepRes.cont (initState gAlt 0 3))) (0, 2) =
        some (some (M.fin 1)) := by
  refine ⟨rfl, by decide, by decide, by decide, by decide, by decide⟩

theorem lookupScore_cons_ne {k0 k : Nat × Nat} {v : M} {sc : Scores} (h : k ≠ k0) :
    lookupScore ((k0, v) :: sc) k = lookupScore sc k := by
  rw [lookupScore, if_neg (fun hx => h hx.symm)]

theorem setScore_lookup_self {sc : Scores} {k : Nat × Nat} {old v : M}
    (h : lookupScore sc k = some old) : lookupScore (setScore sc k v) k = some v := by
  induction sc with
  | nil => simp [lookupScore] at h
  | cons p rest ih =>
    obtain ⟨k0, v0⟩ := p
    by_cases hk : k0 = k
    · subst hk
      rw [setScore, if_pos rfl, lookupScore, if_pos rfl]
    · rw [setScore, if_neg hk, lookupScore, if_neg hk]
      rw [lookupScore, if_neg hk] at h
      exact ih h

theorem setScore_lookup_ne {sc : Scores} {k k' : Nat × Nat} {v : M} (h : k' ≠ k) :
    lookupScore (setScore sc k v) k' = lookupScore sc k' := by
  induction sc with
  | nil => rfl
  | cons p rest ih =>
    obtain ⟨k0, v0⟩ := p
    by_cases hk : k0 = k
    · subst hk
      rw [setScore, if_pos rfl, lookupScore, lookupScore]
      rw [if_neg (fun hx => h hx.symm), if_neg (fun hx => h hx.symm)]
    · rw [setScore, if_neg hk, lookupScore, lookupScore]
      by_cases hk2 : k0 = k'
      · rw [if_pos hk2, if_pos hk2]
      · rw [if_neg hk2, if_neg hk2]
        exact ih

theorem M.blt_trans {a b c : M} (h1 : M.blt a b = true) (h2 : M.blt b c = true) :
    M.blt a c = true := by
  cases a with
  | inf => cases b <;> simp [M.blt, M.ble] at h1
  | fin x =>
    cases c with
    | inf => rfl
    | fin z =>
      cases b with
      | inf => simp [M.blt, M.ble] at h2
      | fin y =>
        simp only [M.blt, M.ble] at h1 h2 ⊢
        have h1x : ¬ y ≤ x := by
          intro hle
          have hb : Nat.ble y x = true := by simpa using hle
          rw [hb] at h1
          simp at h1
        have h2x : ¬ z ≤ y := by
          intro hle
          have hb : Nat.ble z y = true := by simpa using hle
          rw [hb] at h2
          simp at h2
        cases hb : Nat.ble z x with
        | true =>
          exfalso
          have hzx : z ≤ x := by simpa using hb
          omega
        | false => rfl

/-- Each surviving table entry only ever shrinks, strictly when it changes:
the relaxation discipline the spec describes for the distance table. -/
def scoresMono (old new : Scores) : Prop :=
  ∀ k d, lookupScore old k = some d →
    ∃ d', lookupScore new k = some d' ∧ (d' = d ∨ M.blt d' d = true)

theorem scoresMono_refl (sc : Scores) : scoresMono sc sc :=
  fun _ d h => ⟨d, h, Or.inl rfl⟩

theorem scoresMono_trans {a b c : Scores} (h1 : scoresMono a b) (h2 : scoresMono b c) :
    scoresMono a c := by
  intro k d hd
  obtain ⟨d1, hb, ho1⟩ := h1 k d hd
  obtain ⟨d2, hc, ho2⟩ := h2 k d1 hb
  refine ⟨d2, hc, ?_⟩
  rcases ho1 with rfl | hlt1
  · exact ho2
  · rcases ho2 with rfl | hlt2
    · exact Or.inr hlt1
    · exact Or.inr (M.blt_trans hlt2 hlt1)

theorem relaxF_scoresMono {s t : Nat} {st st' : DState} {e : Edge} {rest : List Edge}
    (h : relaxF s t st e rest = .cont st') : scoresMono st.scores st'.scores := by
  by_cases hcl : e.tgt ∈ st.fClosed
  · simp only [relaxF, hcl, if_true] at h
    simp only [StepRes.cont.injEq] at h
    subst h
    exact scoresMono_refl _
  · cases hlk : lookupScore st.scores (s, e.tgt) with
    | none =>
      simp only [relaxF, hcl, if_false, hlk] at h
      simp only [StepRes.cont.injEq] at h
      subst h
      intro k d hd
      have hne : k ≠ (s, e.tgt) := by
        intro hx
        rw [hx, hlk] at hd
        exact Option.noConfusion hd
      refine ⟨d, ?_, Or.inl rfl⟩
      show lookupScore (((s, e.tgt), _) :: st.scores) k = some d
      rw [lookupScore_cons_ne hne]
      exact hd
    | some old =>
      by_cases hblt : M.blt (M.add (scoreGet st.scores (s, st.us)) (M.fin e.cost)) old = true
      · simp only [relaxF, hcl, if_false, hlk, hblt, if_true] at h
        simp only [StepRes.cont.injEq] at h
        subst h
        intro k d hd
        by_cases hk : k = (s, e.tgt)
        · subst hk
          rw [hlk] at hd
          obtain rfl : old = d := Option.some.injEq _ _ ▸ hd
          exact ⟨_, setScore_lookup_self hlk, Or.inr hblt⟩
        · refine ⟨d, ?_, Or.inl rfl⟩
          show lookupScore (setScore st.scores (s, e.tgt) _) k = some d
          rw [setScore_lookup_ne hk]
          exact hd
      · simp only [relaxF, hcl, if_false, hlk, hblt] at h
        simp only [StepRes.cont.injEq] at h
        subst h
        exact scoresMono_refl _

theorem relaxB_scoresMono {s t : Nat} {st st' : DState} {e : Edge} {rest : List Edge}
    (h : relaxB s t st e rest = .cont st') : scoresMono st.scores st'.scores := by
  by_cases hcl : e.src ∈ st.bClosed
  · simp only [relaxB, hcl, if_true] at h
    simp only [StepRes.cont.injEq] at h
    subst h
    exact scoresMono_refl _
  · cases hlk : lookupScore st.scores (e.src, t) with
    | none =>
      simp only [relaxB, hcl, if_false, hlk] at h
      simp only [StepRes.cont.injEq] at h
      subst h
      intro k d hd
      have hne : k ≠ (e.src, t) := by
        intro hx
        rw [hx, hlk] at hd
        exact Option.noConfusion hd
      refine ⟨d, ?_, Or.inl rfl⟩
      show lookupScore (((e.src, t), _) :: st.scores) k = some d
      rw [lookupScore_cons_ne hne]
      exact hd
    | some old =>
      by_cases hblt : M.blt (M.add (scoreGet st.scores (st.ut, t)) (M.fin e.cost)) old = true
      · simp only [relaxB, hcl, if_false, hlk, hblt, if_true] at h
        simp only [StepRes.cont.injEq] at h
        subst h
        intro k d hd
        by_cases hk : k = (e.src, t)
        · subst hk
          rw [hlk] at hd
          obtain rfl : old = d := Option.some.injEq _ _ ▸ hd
          exact ⟨_, setScore_lookup_self hlk, Or.inr hblt⟩
        · refine ⟨d, ?_, Or.inl rfl⟩
          show lookupScore (setScore st.scores (e.src, t) _) k = some d
          rw [setScore_lookup_ne hk]
          exact hd
      · simp only [relaxB, hcl, if_false, hlk, hblt] at h
        simp only [StepRes.cont.injEq] at h
        subst h
        exact scoresMono_refl _

/-- Every continuing step of the driver respects the relaxation discipline
on the table: entries persist and are overwritten only by strictly smaller
values. -/
theorem stepD_scoresMono {g : Graph} {s t : Nat} {st st' : DState}
    (h : stepD g s t st = .cont st') : scoresMono st.scores st'.scores := by
  unfold stepD at h
  cases hp : st.phase <;> rw [hp] at h
  · unfold forwardStep at h
    by_cases hc : checkCond s t st
    · rw [if_pos hc] at h
      exact absurd h (by simp)
    rw [if_neg hc] at h
    cases hIt : st.fIter with
    | cons e rest =>
      rw [hIt] at h
      exact relaxF_scoresMono h
    | nil =>
      rw [hIt] at h
      cases hpu : popUnclosed st.fHeap st.fClosed with
      | none =>
        rw [hpu] at h
        exact absurd h (by simp)
      | some p =>
        obtain ⟨node, fh⟩ := p
        rw [hpu] at h
        simp only [StepRes.cont.injEq] at h
        subst h
        exact scoresMono_refl _
  · unfold backwardStep at h
    by_cases hc : checkCond s t st
    · rw [if_pos hc] at h
      exact absurd h (by simp)
    rw [if_neg hc] at h
    cases hIt : st.bIter with
    | cons e rest =>
      rw [hIt] at h
      exact relaxB_scoresMono h
    | nil =>
      rw [hIt] at h
      cases hpu : popUnclosed st.bHeap st.bClosed with
      | none =>
        rw [hpu] at h
        exact absurd h (by simp)
      | some p =>
        obtain ⟨node, bh⟩ := p
        rw [hpu] at h
        simp only [StepRes.cont.injEq] at h
        subst h
        exact scoresMono_refl _

/-- Zero or more continuing steps of the driver. -/
inductive Steps (g : Graph) (s t : Nat) : DState → DState → Prop where
  | refl (st : DState) : Steps g s t st st
  | tail {a b c : DState} : Steps g s t a b → stepD g s t b = .cont c → Steps g s t a c

/-- C5 (amended): along any run of the driver, each entry of the distance
table persists and is overwritten only by a strictly smaller value, so every
stored tentative distance is monotonically non-increasing over the run.  The
settled-value clause of the original claim — the entry equals the true
shortest distance from its anchor once the node is closed — is refuted by
the counterexample below and is therefore dropped. -/
theorem C5_scores_monotone_over_run (g : Graph) (s t : Nat) (st st' : DState)
    (h : Steps g s t st st') : scoresMono st.scores st'.scores := by
  induction h with
  | refl => exact scoresMono_refl _
  | tail h1 h2 ih => exact scoresMono_trans ih (stepD_scoresMono h2)

/-- The state used by the C5 witness: a forward state about to discard an
edge to a forward-closed node, stepping without touching the table. -/
def stC5w : DState where
  μ := M.inf
  scores := [((0, 0), M.zero), ((1, 1), M.zero)]
  us := 0
  ut := 1
  fClosed := [1, 0]
  bClosed := [1]
  fIter := [⟨0, 1, 5⟩]
  bIter := []
  fHeap := []
  bHeap := []
  phase := .fwd

/-- C5 witness: a one-step run from the hand-built state, whose table obeys
the monotonicity relation. -/
theorem C5_scores_monotone_over_run_witness :
    Steps gCyc 0 1 stC5w { stC5w with fIter := [], phase := Phase.bwd } ∧
      scoresMono stC5w.scores
        ({ stC5w with fIter := [], phase := Phase.bwd } : DState).scores := by
  have hstep : stepD gCyc 0 1 stC5w =
      .cont { stC5w with fIter := [], phase := Phase.bwd } := by decide
  have hs := Steps.tail (Steps.refl stC5w) hstep
  exact ⟨hs, C5_scores_monotone_over_run gCyc 0 1 _ _ hs⟩

/-- The forward closed set of a still-running step result. -/
def resfClosed : StepRes → Option (List Nat)
  | .cont st => some st.fClosed
  | .done _ _ => none

/-- The settled-value counterexample graph: edges 0 → 0 cost 1, 0 → 1 cost
3, 0 → 2 cost 5, 1 → 1 cost 4, 1 → 2 cost 1.  The shortest 0 → 2 distance
is 4 (through node 1). -/
def gC5 : Graph := ⟨[0, 1, 2], [⟨0, 0, 1⟩, ⟨0, 1, 3⟩, ⟨0, 2, 5⟩, ⟨1, 1, 4⟩, ⟨1, 2, 1⟩]⟩

/-- C5 counterexample: with source 0 and target 1 on gC5, after six driver
steps node 2 is closed in the forward direction while its stored distance is
5, not the true shortest distance 4.  The backward frontier wrote the shared
key (0, 1) first, so the forward relaxation of the equally-cheap path to
node 1 did not improve the entry and node 1 was never pushed onto the
forward queue; the forward frontier then settled node 2 through the
expensive direct edge.  (Cursor order is the embedding's declared edge-list
order; every heap pop in this run has a unique minimal key, so no heap
tie-break is involved.) -/
theorem C5_settled_value_counterexample :
    resfClosed (stepN gC5 0 1 6 (StepRes.cont (initState gC5 0 1))) = some [2, 0] ∧
      resLookup (stepN gC5 0 1 6 (StepRes.cont (initState gC5 0 1))) (0, 2) =
        some (some (M.fin 5)) ∧
      dijkstra gC5 0 2 = M.fin 4 ∧ M.fin 5 ≠ M.fin 4 := by
  refine ⟨by decide, by decide, by decide, by decide⟩

/-- The graph capability used by the elimination-ordering routine: node
identifiers and petgraph's neighbors(a) enumeration, taken as undirected
adjacency by the caller's contract. -/
structure UGraph where
  nodeIds : List Nat
  adj : Nat → List Nat

/-- is_clique of peo.rs: for every member a of the set, removing a and a's
neighbors from the set must leave nothing. -/
def is_clique (g : UGraph) (s : List Nat) : Bool :=
  s.all (fun a =>
    ((s.filter (fun b => b != a)).filter (fun b => !((g.adj a).contains b))).isEmpty)

/-- The candidate scan of one pass of peo's loop: the first remaining node
whose full-graph neighbor set forms a clique. -/
def findSimplicial (g : UGraph) : List Nat → Option Nat
  | [] => none
  | a :: rest =>
    if is_clique g ((g.adj a).dedup) then some a else findSimplicial g rest

theorem findSimplicial_mem (g : UGraph) : ∀ (l : List Nat) (a : Nat),
    findSimplicial g l = some a → a ∈ l := by
  intro l
  induction l with
  | nil => intro a h; simp [findSimplicial] at h
  | cons x rest ih =>
    intro a h
    by_cases hc : is_clique g ((g.adj x).dedup) = true
    · rw [findSimplicial, if_pos hc] at h
      simp at h
      rw [← h]
      exact List.mem_cons_self x rest
    · rw [findSimplicial, if_neg hc] at h
      exact List.mem_cons_of_mem x (ih a h)

theorem findSimplicial_none (g : UGraph) : ∀ (l : List Nat),
    findSimplicial g l = none →
      ∀ x, x ∈ l → is_clique g ((g.adj x).dedup) = false := by
  intro l
  induction l with
  | nil => intro _ x hx; simp at hx
  | cons a rest ih =>
    intro h x hx
    by_cases hc : is_clique g ((g.adj a).dedup) = true
    · rw [findSimplicial, if_pos hc] at h
      simp at h
    · rw [findSimplicial, if_neg hc] at h
      rcases List.mem_cons.mp hx with rfl | hx2
      · simpa using hc
      · exact ih h x hx2

/-- Structural worker for peo's while loop: one fuel unit per selected node;
fuel one past the pool size never runs out. -/
def peoGoAux (g : UGraph) : Nat → List Nat → List Nat → Option (List Nat)
  | 0, _, _ => none
  | f + 1, v, nodes =>
    if nodes.isEmpty then some v
    else
      match findSimplicial g nodes with
      | some a => peoGoAux g f (v ++ [a]) (nodes.erase a)
      | none => none

/-- peo of peo.rs: repeatedly peel off a simplicial vertex of the remaining
pool (the node identifiers collected into a set); return the peeling order,
or None when a pass finds no simplicial vertex. -/
def peo (g : UGraph) : Option (List Nat) :=
  peoGoAux g (g.nodeIds.dedup.length + 1) [] g.nodeIds.dedup

theorem peoGoAux_perm (g : UGraph) : ∀ (f : Nat) (v nodes res : List Nat),
    peoGoAux g f v nodes = some res → res.Perm (v ++ nodes) := by
  intro f
  induction f with
  | zero => intro v nodes res h; simp [peoGoAux] at h
  | succ m ih =>
    intro v nodes res h
    simp only [peoGoAux] at h
    by_cases hn : nodes.isEmpty = true
    · rw [if_pos hn] at h
      simp at h
      have hnil : nodes = [] := by
        cases nodes with
        | nil => rfl
        | cons y ys => simp at hn
      rw [hnil, List.append_nil, ← h]

    · rw [if_neg hn] at h
      cases hf : findSimplicial g nodes with
      | none => rw [hf] at h; simp at h
      | some a =>
        rw [hf] at h
        have ha : a ∈ nodes := findSimplicial_mem g nodes a hf
        have hperm := ih (v ++ [a]) (nodes.erase a) res h
        refine hperm.trans ?_
        rw [List.append_assoc]
        exact List.Perm.append_left v (List.perm_cons_erase ha).symm

theorem peoGoAux_none (g : UGraph) : ∀ (f : Nat) (v nodes : List Nat),
    nodes.length < f → peoGoAux g f v nodes = none →
      ∃ x, x ∈ nodes ∧ is_clique g ((g.adj x).dedup) = false := by
  intro f
  induction f with
  | zero => intro v nodes hlt _; exact absurd hlt (Nat.not_lt_zero _)
  | succ m ih =>
    intro v nodes hlt h
    simp only [peoGoAux] at h
    by_cases hn : nodes.isEmpty = true
    · rw [if_pos hn] at h
      simp at h
    · rw [if_neg hn] at h
      have hne : nodes ≠ [] := by
        intro hx
        rw [hx] at hn
        simp at hn
      cases hf : findSimplicial g nodes with
      | none =>
        obtain ⟨x, hx⟩ := List.exists_mem_of_ne_nil nodes hne
        exact ⟨x, hx, findSimplicial_none g nodes hf x hx⟩
      | some a =>
        rw [hf] at h
        have ha : a ∈ nodes := findSimplicial_mem g nodes a hf
        have hlen : (nodes.erase a).length < m := by
          have h1 := List.length_erase_of_mem ha
          have hpos : 0 < nodes.length := List.length_pos.mpr hne
          omega
        obtain ⟨x, hx1, hx2⟩ := ih (v ++ [a]) (nodes.erase a) hlen h
        exact ⟨x, List.mem_of_mem_erase hx1, hx2⟩

/-- C10: whenever peo returns Some v, the vector v lists every node
identifier of the graph exactly once (a permutation of the node set);
whenever it returns None, some node whose neighborhood fails the clique
test exists — it is one of those still in the pool when the failing pass
scanned them all. -/
theorem C10_peo_permutation_or_blocked (g : UGraph) :
    (∀ res, peo g = some res → res.Nodup ∧ ∀ x, x ∈ res ↔ x ∈ g.nodeIds) ∧
      (peo g = none →
        ∃ x, x ∈ g.nodeIds ∧ is_clique g ((g.adj x).dedup) = false) := by
  constructor
  · intro res h
    unfold peo at h
    have hperm := peoGoAux_perm g (g.nodeIds.dedup.length + 1) [] g.nodeIds.dedup res h
    simp only [List.nil_append] at hperm
    constructor
    · exact hperm.nodup_iff.mpr (List.nodup_dedup _)
    · intro x
      rw [hperm.mem_iff, List.mem_dedup]
  · intro h
    unfold peo at h
    obtain ⟨x, hx1, hx2⟩ :=
      peoGoAux_none g (g.nodeIds.dedup.length + 1) [] g.nodeIds.dedup
        (Nat.lt_succ_self _) h
    exact ⟨x, List.mem_dedup.mp hx1, hx2⟩

/-- A triangle, complete on three nodes: every vertex is simplicial. -/
def gPeo : UGraph :=
  ⟨[0, 1, 2], fun n =>
    if n = 0 then [1, 2] else if n = 1 then [0, 2] else if n = 2 then [0, 1] else []⟩

/-- A chordless four-cycle: no vertex is simplicial, so peo fails. -/
def gPeoBad : UGraph :=
  ⟨[0, 1, 2, 3], fun n =>
    if n = 0 then [1, 3]
    else if n = 1 then [0, 2]
    else if n = 2 then [1, 3]
    else if n = 3 then [2, 0]
    else []⟩

/-- C10 witness: on the triangle peo yields the ordering 0, 1, 2, which is
nodup and covers node 2; on the chordless four-cycle peo fails and a node
with a non-clique neighborhood exists. -/
theorem C10_peo_permutation_or_blocked_witness :
    peo gPeo = some [0, 1, 2] ∧
      List.Nodup [0, 1, 2] ∧ (2 ∈ ([0, 1, 2] : List Nat) ↔ 2 ∈ gPeo.nodeIds) ∧
      peo gPeoBad = none ∧
      (∃ x, x ∈ gPeoBad.nodeIds ∧
        is_clique gPeoBad ((gPeoBad.adj x).dedup) = false) := by
  have h1 := (C10_peo_permutation_or_blocked gPeo).1 [0, 1, 2] (by decide)
  have h2 := (C10_peo_permutation_or_blocked gPeoBad).2 (by decide)
  exact ⟨by decide, h1.1, h1.2 2, by decide, h2⟩

end BD
